import Mathlib

/-!
# Verification of the 2048 rule engine (`src/app.rs`)

Shallow embedding of the game core of the repository `Qw11111111111/2048`:
the 4×4 board of `Field`s with precomputed neighbour indices, the recursive
slide/merge resolution (`recursive_merge`, `Grid::move_vals`), the spawn/death
scan (`App::new_pieces`), and the key-event driven round controller
(`App::handle_key_event`, the body of `App::run`).

Modelling conventions:
* Rust `u64` values (tile values, score) are modelled as `Nat`.  In the
  program a `u64` overflow would require more than `2^63` spawned tiles and is
  unreachable; debug builds would panic rather than wrap.
* `Vec<Option<Field>>` always holds `Some` fields (it is built with
  `vec![Option::from(Field::new()); 16]` and every access immediately
  `unwrap`s), so it is modelled as `List Field`.
* `recursive_merge` recurses along the stored neighbour chain, which for an
  arbitrary neighbour assignment need not terminate; it is modelled with
  explicit fuel, `none` standing for the diverging (or panicking) run.  For
  the adjacency built by `Grid::new` the chain has length at most 4 and the
  fuel is never exhausted (theorem `recursive_merge_terminates`).
* The `f64` draws of `rand::thread_rng().gen_range(0.0..1.0)` in
  `App::new_pieces` are modelled as rationals supplied by an oracle
  `draws : Nat → ℚ` (one draw for the n-th loop iteration); the literal
  `0.1` is modelled as the rational `mkRat 1 10`.  Only the comparison
  `rand < 0.1` is ever used, so this is faithful up to the naming of the
  threshold.
* The `padding : f64` field of `App` is render-only and omitted.
-/

namespace App2048

/-- One cell of the board: its value and the indices of its four neighbours
in the order top, right, bottom, left (`struct Field` in `app.rs`). -/
structure Field where
  val : Nat
  neighbours : List (Option Nat)
deriving Repr, DecidableEq, Inhabited

/-- `Field::new()`. -/
def Field.new : Field :=
  { val := 0, neighbours := [] }

/-- `Field::check_for_merge`: the mover `next_val` may enter this field iff
the values agree or this field is empty. -/
def Field.check_for_merge (self : Field) (next_val : Nat) : Bool :=
  self.val == next_val || self.val == 0

/-- `Field::merge`: absorb the moving value and add the *new* value of the
field to the score. -/
def Field.merge (self : Field) (moving : Nat) (score : Nat) : Field × Nat :=
  ({ self with val := self.val + moving }, score + (self.val + moving))

/-- The board (`struct Grid`). -/
structure Grid where
  fields : List Field
deriving Repr, DecidableEq, Inhabited

/-- `recursive_merge` from `app.rs`, with explicit fuel (first argument);
`none` models the run that exhausts every stack (the recursion follows the
stored neighbour chain, which for a degenerate adjacency may cycle).  The
`Bool` is the `is_movable` result: `false` exactly for a `None` start. -/
def recursive_merge : Nat → Option Nat → Nat → List Field → Nat →
    Option (Bool × List Field × Nat)
  | 0, _, _, _, _ => none
  | _fuel + 1, none, _, fields, score => some (false, fields, score)
  | fuel + 1, some field, direction, fields, score =>
    let next_index := (fields.getD field default).neighbours.getD direction none
    match recursive_merge fuel next_index direction fields score with
    | none => none
    | some (is_movable, fields', score') =>
      if !is_movable then some (true, fields', score')
      else
        match next_index with
        | none => none
        | some j =>
          let current_val := (fields'.getD field default).val
          let next_field := fields'.getD j default
          if next_field.check_for_merge current_val then
            let m := next_field.merge current_val score'
            some (true,
              (fields'.set j m.1).set field
                { (fields'.getD field default) with val := 0 },
              m.2)
          else some (true, fields', score')

/-- One pass of the inner loop of `Grid::move_vals`: call `recursive_merge`
for every index in the visiting order `o` (the source uses `0..16`).  Each
call gets fresh fuel `length + 1`, enough for any terminating chain. -/
def movePass (direction : Nat) (o : List Nat) (st : Option (List Field × Nat)) :
    Option (List Field × Nat) :=
  o.foldl (fun acc i =>
    acc.bind fun fs =>
      (recursive_merge (fs.1.length + 1) (some i) direction fs.1 fs.2).map
        fun r => (r.2.1, r.2.2)) st

/-- `Grid::move_vals`: reject unknown directions, then run two passes over
all tile indices in ascending order. -/
def Grid.move_vals (g : Grid) (direction : Nat) (score : Nat) :
    Option (Grid × Nat) :=
  if !([0, 1, 2, 3].any fun v => v == direction) then some (g, score)
  else
    (movePass direction (List.range g.fields.length)
      (movePass direction (List.range g.fields.length)
        (some (g.fields, score)))).map fun fs => (⟨fs.1⟩, fs.2)

/-- `Grid::new()`: 16 empty fields with the row-major adjacency
(top = i-4 unless in row 0, left = i-1 unless in column 0,
bottom = i+4 unless in row 3, right = i+1 unless in column 3). -/
def Grid.new : Grid :=
  let fields := List.replicate 16 Field.new
  ⟨(List.enum fields).map fun p =>
    let i := p.1
    let top : Option Nat := if i < 4 then none else some (i - 4)
    let left : Option Nat := if [0, 4, 8, 12].any (fun v => v == i) then none
      else some (i - 1)
    let bot : Option Nat := if i > 11 then none else some (i + 4)
    let right : Option Nat := if [3, 7, 11, 15].any (fun v => v == i) then none
      else some (i + 1)
    { p.2 with neighbours := [top, right, bot, left] }⟩

/-- The round controller state (`struct App`); the render-only `padding`
field is omitted. -/
structure App where
  score : Nat
  highscore : Nat
  exit : Bool
  on_pause : Bool
  dead : Bool
  grid : Grid
deriving Repr, DecidableEq, Inhabited

/-- `App::new()` (before `main` overwrites `highscore` with the persisted
value; `init_level` is a no-op). -/
def App.new : App :=
  { score := 0
    highscore := 0
    exit := false
    on_pause := false
    dead := false
    grid := Grid.new }

/-- `App::is_dead`. -/
def App.is_dead (a : App) : App :=
  if !a.dead then { a with dead := true } else a

/-- The spawn/death scan of `App::new_pieces`: walk the fields, drawing
`draws n` for the field at position `n`; spawn a 2 on an empty field whose
draw is below the threshold; if the board was full before the scan and a
draw is below the threshold, report death and stop.  Returns the updated
fields and whether `is_dead` was invoked. -/
def newPiecesGo (draws : Nat → ℚ) (all_full : Bool) :
    Nat → List Field → List Field × Bool
  | _, [] => ([], false)
  | n, f :: rest =>
    let rand := draws n
    let f' := if f.val == 0 && decide (rand < mkRat 1 10) then { f with val := 2 }
      else f
    if decide (rand < mkRat 1 10) && all_full then (f' :: rest, true)
    else
      let r := newPiecesGo draws all_full (n + 1) rest
      (f' :: r.1, r.2)

/-- `App::new_pieces` with the draw oracle made explicit. -/
def App.new_pieces (a : App) (draws : Nat → ℚ) : App :=
  let all_full := a.grid.fields.all fun field => field.val != 0
  let r := newPiecesGo draws all_full 0 a.grid.fields
  let a' := { a with grid := ⟨r.1⟩ }
  if r.2 then a'.is_dead else a'

/-- `App::move_left` (`move_vals(3, ..)` then `new_pieces`). -/
def App.move_left (a : App) (draws : Nat → ℚ) : Option App :=
  (a.grid.move_vals 3 a.score).map fun gs =>
    App.new_pieces { a with grid := gs.1, score := gs.2 } draws

/-- `App::move_right`. -/
def App.move_right (a : App) (draws : Nat → ℚ) : Option App :=
  (a.grid.move_vals 1 a.score).map fun gs =>
    App.new_pieces { a with grid := gs.1, score := gs.2 } draws

/-- `App::move_down`. -/
def App.move_down (a : App) (draws : Nat → ℚ) : Option App :=
  (a.grid.move_vals 2 a.score).map fun gs =>
    App.new_pieces { a with grid := gs.1, score := gs.2 } draws

/-- `App::move_up`. -/
def App.move_up (a : App) (draws : Nat → ℚ) : Option App :=
  (a.grid.move_vals 0 a.score).map fun gs =>
    App.new_pieces { a with grid := gs.1, score := gs.2 } draws

/-- `App::pause` (toggle). -/
def App.pause (a : App) : App :=
  if a.on_pause then { a with on_pause := false } else { a with on_pause := true }

/-- `App::exit`. -/
def App.exit_app (a : App) : App :=
  { a with exit := true }

/-- `App::restart`.  The branch taken while dead persists the high score and
reads it back.  Modelled from the spec: `read_write.rs` is not under `src/`;
per §6 of the spec, `save` persists the current high score to the single
binary record and `read` returns the persisted value, so the round trip
`read(save(highscore))` yields `highscore` unchanged. -/
def App.restart (a : App) : App :=
  if a.dead then
    { a with
      highscore := a.highscore
      score := 0
      on_pause := false
      dead := false
      grid := Grid.new }
  else a

/-- The key codes distinguished by `App::handle_key_event`. -/
inductive KeyCode where
  | charQ | esc | enter | right | left | up | down | other
deriving Repr, DecidableEq

/-- `App::handle_key_event`: no pause/dead gate appears here — every
directional key always resolves a move and spawns. -/
def App.handle_key_event (a : App) (k : KeyCode) (draws : Nat → ℚ) :
    Option App :=
  match k with
  | .charQ => some a.exit_app
  | .esc => some a.pause
  | .enter => some a.restart
  | .right => a.move_right draws
  | .left => a.move_left draws
  | .up => a.move_up draws
  | .down => a.move_down draws
  | .other => some a

/-- `App::highscore`. -/
def App.highscore_update (a : App) : App :=
  if a.score > a.highscore then { a with highscore := a.score } else a

/-- One iteration of the loop body of `App::run` in which a key press was
polled: the event is handled first, and only afterwards do the `exit` and
`on_pause || dead` checks run — the latter merely skip the high-score
update. -/
def App.run_step (a : App) (k : KeyCode) (draws : Nat → ℚ) : Option App :=
  (a.handle_key_event k draws).map fun a' =>
    if a'.exit then a'
    else if a'.on_pause || a'.dead then a'
    else a'.highscore_update

end App2048

namespace App2048

/-- A game board: the fields of `Grid::new()` with prescribed values. -/
def Grid.withVals (vs : List Nat) : Grid :=
  ⟨(Grid.new.fields.zip vs).map fun p => { p.1 with val := p.2 }⟩

/-- The adjacency formula of the spec: for `index = r*4+c`,
`up = index-4` iff `r>0`, `right = index+1` iff `c<3`,
`down = index+4` iff `r<3`, `left = index-1` iff `c>0`. -/
def stdNbrs (i : Nat) : List (Option Nat) :=
  [if 0 < i / 4 then some (i - 4) else none,
   if i % 4 < 3 then some (i + 1) else none,
   if i / 4 < 3 then some (i + 4) else none,
   if 0 < i % 4 then some (i - 1) else none]

/-- A field list that has the shape of a constructed board: 16 fields whose
neighbour lists follow the construction formula. -/
def StdAdj (fs : List Field) : Prop :=
  fs.length = 16 ∧ ∀ i < 16, (fs.getD i default).neighbours = stdNbrs i

instance : DecidablePred StdAdj := fun fs => by
  unfold StdAdj; infer_instance

theorem grid_new_stdAdj : StdAdj Grid.new.fields := by decide


theorem grid_withVals_length (vs : List Nat) (h : vs.length = 16) :
    (Grid.withVals vs).fields.length = 16 := by
  have hg : Grid.new.fields.length = 16 := by decide
  simp [Grid.withVals, h, hg]

theorem grid_withVals_stdAdj (vs : List Nat) (h : vs.length = 16) :
    StdAdj (Grid.withVals vs).fields := by
  have hg : Grid.new.fields.length = 16 := by decide
  refine ⟨grid_withVals_length vs h, fun i hi => ?_⟩
  have hlen : i < ((Grid.new.fields.zip vs).map fun p =>
      { p.1 with val := p.2 }).length := by
    simp [h, hg]; omega
  rw [Grid.withVals, List.getD_eq_getElem _ _ hlen, List.getElem_map,
    List.getElem_zip]
  have := grid_new_stdAdj.2 i hi
  rw [List.getD_eq_getElem _ _ (by omega : i < Grid.new.fields.length)] at this
  exact this

/-- Unfolding equations of `recursive_merge` at a `some` start, one per
control path. -/
theorem rm_step_none (fuel i d : Nat) (fs : List Field) (s : Nat)
    (h : recursive_merge fuel ((fs.getD i default).neighbours.getD d none) d fs s
      = none) :
    recursive_merge (fuel + 1) (some i) d fs s = none := by
  rw [recursive_merge]
  simp only [h]

theorem rm_step_blocked (fuel i d : Nat) (fs fs' : List Field) (s s' : Nat)
    (h : recursive_merge fuel ((fs.getD i default).neighbours.getD d none) d fs s
      = some (false, fs', s')) :
    recursive_merge (fuel + 1) (some i) d fs s = some (true, fs', s') := by
  rw [recursive_merge]
  simp only [h]
  rfl

theorem rm_step_merge (fuel i j d : Nat) (fs fs' : List Field) (s s' : Nat)
    (hn : (fs.getD i default).neighbours.getD d none = some j)
    (h : recursive_merge fuel ((fs.getD i default).neighbours.getD d none) d fs s
      = some (true, fs', s'))
    (hc : (fs'.getD j default).check_for_merge ((fs'.getD i default).val) = true) :
    recursive_merge (fuel + 1) (some i) d fs s =
      some (true,
        (fs'.set j { (fs'.getD j default) with
            val := (fs'.getD j default).val + (fs'.getD i default).val }).set i
          { (fs'.getD i default) with val := 0 },
        s' + ((fs'.getD j default).val + (fs'.getD i default).val)) := by
  rw [hn] at h
  rw [recursive_merge]
  simp only [h, hn, Bool.not_true, Bool.false_eq_true, if_false, hc, if_true,
    Field.merge]

theorem rm_step_stuck (fuel i j d : Nat) (fs fs' : List Field) (s s' : Nat)
    (hn : (fs.getD i default).neighbours.getD d none = some j)
    (h : recursive_merge fuel ((fs.getD i default).neighbours.getD d none) d fs s
      = some (true, fs', s'))
    (hc : (fs'.getD j default).check_for_merge ((fs'.getD i default).val) = false) :
    recursive_merge (fuel + 1) (some i) d fs s = some (true, fs', s') := by
  rw [hn] at h
  rw [recursive_merge]
  simp only [h, hn, Bool.not_true, Bool.false_eq_true, if_false, hc]

/-- `getD` after `set` at a different position. -/
theorem getD_set_ne (fs : List Field) (j k : Nat) (f : Field) (hkj : k ≠ j) :
    (fs.set j f).getD k default = fs.getD k default := by
  rw [List.getD_eq_getD_get?, List.getD_eq_getD_get?,
    List.get?_set_ne _ _ fun hh => hkj hh.symm]

/-- `getD` after `set` at the same, in-range position. -/
theorem getD_set_self (fs : List Field) (j : Nat) (f : Field)
    (hj : j < fs.length) :
    (fs.set j f).getD j default = f := by
  rw [List.getD_eq_getElem _ _ (by simpa using hj)]
  exact List.getElem_set_self (by simpa using hj)

/-- Setting a field with unchanged neighbour list preserves every field's
neighbour list. -/
theorem set_nbrs (fs : List Field) (j k : Nat) (f : Field)
    (hf : f.neighbours = (fs.getD j default).neighbours) :
    ((fs.set j f).getD k default).neighbours =
      (fs.getD k default).neighbours := by
  rcases eq_or_ne k j with rfl | hkj
  · by_cases hk : k < fs.length
    · rw [getD_set_self fs k f hk, hf]
    · rw [List.getD_eq_default _ _ (by simpa using Nat.le_of_not_lt hk),
        List.getD_eq_default _ _ (Nat.le_of_not_lt hk)]
  · rw [getD_set_ne fs j k f hkj]

/-- The sum of all tile values. -/
def sumVals (fs : List Field) : Nat :=
  (fs.map Field.val).sum

theorem sumVals_set (fs : List Field) : ∀ (k : Nat) (f : Field),
    k < fs.length →
    sumVals (fs.set k f) + (fs.getD k default).val = sumVals fs + f.val := by
  induction fs with
  | nil => intro k f h; cases h
  | cons g gs ih =>
    intro k f h
    cases k with
    | zero =>
      simp only [List.set_cons_zero, sumVals, List.map_cons, List.sum_cons,
        List.getD_cons_zero]
      omega
    | succ k =>
      have hk : k < gs.length := by simpa using Nat.lt_of_succ_lt_succ h
      have := ih k f hk
      simp only [List.set_cons_succ, sumVals, List.map_cons, List.sum_cons,
        List.getD_cons_succ] at this ⊢
      omega

/-- `recursive_merge` only rewrites values: length and neighbour lists are
unchanged in any successful run. -/
theorem recursive_merge_shape : ∀ (fuel : Nat) (mv : Option Nat) (d : Nat)
    (fs : List Field) (s : Nat) (r : Bool × List Field × Nat),
    recursive_merge fuel mv d fs s = some r →
    r.2.1.length = fs.length ∧
      ∀ k, (r.2.1.getD k default).neighbours = (fs.getD k default).neighbours := by
  intro fuel
  induction fuel with
  | zero => intro mv d fs s r h; cases h
  | succ fuel ih =>
    intro mv d fs s r h
    cases mv with
    | none =>
      simp only [recursive_merge] at h
      cases h
      exact ⟨rfl, fun k => rfl⟩
    | some i =>
      rw [recursive_merge] at h
      cases hrec : recursive_merge fuel
          ((fs.getD i default).neighbours.getD d none) d fs s with
      | none =>
        simp only [hrec] at h
        exact Option.noConfusion h
      | some r' =>
        obtain ⟨mv', fs', s'⟩ := r'
        obtain ⟨hlen, hnb⟩ := ih _ d fs s _ hrec
        simp only [hrec] at h
        by_cases hmv : mv'
        · subst hmv
          simp only [Bool.not_true, Bool.false_eq_true, if_false] at h
          cases hnext : (fs.getD i default).neighbours.getD d none with
          | none =>
            simp only [hnext] at h
            exact Option.noConfusion h
          | some j =>
            simp only [hnext] at h
            by_cases hc : (fs'.getD j default).check_for_merge
                ((fs'.getD i default).val) = true
            · simp only [hc, if_true] at h
              cases h
              refine ⟨by simpa using hlen, fun k => ?_⟩
              rw [← hnb k]
              rw [set_nbrs _ i k _ (by
                  rw [set_nbrs _ j i _ (by simp [Field.merge])]),
                set_nbrs _ j k _ (by simp [Field.merge])]
            · simp only [hc, if_false, Bool.false_eq_true] at h
              cases h
              exact ⟨hlen, hnb⟩
        · simp only [Bool.not_eq_true] at hmv
          subst hmv
          simp only [Bool.not_false, if_true] at h
          cases h
          exact ⟨hlen, hnb⟩

/-- Number of neighbour-chain steps from tile `i` to the boundary in
direction `d` under the construction adjacency. -/
def distToEdge (d i : Nat) : Nat :=
  if d = 0 then i / 4
  else if d = 1 then 3 - i % 4
  else if d = 2 then 3 - i / 4
  else i % 4

theorem stdNbrs_spec : ∀ i < 16, ∀ d < 4,
    ((((stdNbrs i).getD d none).all fun j =>
      decide (j < 16) && decide (j ≠ i) &&
        decide (distToEdge d j + 1 = distToEdge d i)) = true) ∧
    (((stdNbrs i).getD d none = none) ↔ distToEdge d i = 0) := by decide

theorem stdNbrs_getD_high (i d : Nat) (hd : 4 ≤ d) :
    (stdNbrs i).getD d none = none :=
  List.getD_eq_default _ _ (by simp [stdNbrs]; omega)

theorem stdNbrs_some (i d j : Nat) (hi : i < 16)
    (h : (stdNbrs i).getD d none = some j) :
    j < 16 ∧ j ≠ i ∧ distToEdge d j + 1 = distToEdge d i := by
  by_cases hd : d < 4
  · have := (stdNbrs_spec i hi d hd).1
    rw [h] at this
    have h2 := by simpa [Option.all, Bool.and_eq_true, decide_eq_true_eq]
      using this
    exact ⟨h2.1.1, h2.1.2, h2.2⟩
  · rw [stdNbrs_getD_high i d (Nat.le_of_not_lt hd)] at h
    cases h

/-- A successful `recursive_merge` run preserves the constructed-board
shape. -/
theorem recursive_merge_stdAdj (fuel : Nat) (mv : Option Nat) (d : Nat)
    (fs : List Field) (s : Nat) (r : Bool × List Field × Nat)
    (hstd : StdAdj fs) (h : recursive_merge fuel mv d fs s = some r) :
    StdAdj r.2.1 := by
  obtain ⟨hlen, hnb⟩ := recursive_merge_shape fuel mv d fs s r h
  exact ⟨hlen.trans hstd.1, fun i hi => (hnb i).trans (hstd.2 i hi)⟩

/-- Merging conserves the total of all tile values. -/
theorem recursive_merge_sum : ∀ (fuel : Nat) (mv : Option Nat) (d : Nat)
    (fs : List Field) (s : Nat) (r : Bool × List Field × Nat),
    StdAdj fs → (∀ i, mv = some i → i < 16) →
    recursive_merge fuel mv d fs s = some r →
    sumVals r.2.1 = sumVals fs := by
  intro fuel
  induction fuel with
  | zero => intro mv d fs s r _ _ h; cases h
  | succ fuel ih =>
    intro mv d fs s r hstd hmv h
    cases mv with
    | none =>
      simp only [recursive_merge] at h
      cases h
      rfl
    | some i =>
      have hi : i < 16 := hmv i rfl
      have hnbrs : (fs.getD i default).neighbours = stdNbrs i := hstd.2 i hi
      rw [recursive_merge] at h
      cases hrec : recursive_merge fuel
          ((fs.getD i default).neighbours.getD d none) d fs s with
      | none =>
        simp only [hrec] at h
        exact Option.noConfusion h
      | some r' =>
        obtain ⟨mv', fs', s'⟩ := r'
        have hnext16 : ∀ j, (fs.getD i default).neighbours.getD d none = some j →
            j < 16 := by
          intro j hj
          rw [hnbrs] at hj
          exact (stdNbrs_some i d j hi hj).1
        have hsum' : sumVals fs' = sumVals fs :=
          ih _ d fs s _ hstd hnext16 hrec
        have hlen' : fs'.length = 16 :=
          (recursive_merge_shape fuel _ d fs s _ hrec).1.trans hstd.1
        simp only [hrec] at h
        by_cases hmv' : mv'
        · subst hmv'
          simp only [Bool.not_true, Bool.false_eq_true, if_false] at h
          cases hnext : (fs.getD i default).neighbours.getD d none with
          | none =>
            simp only [hnext] at h
            exact Option.noConfusion h
          | some j =>
            obtain ⟨hj16, hji, -⟩ := stdNbrs_some i d j hi (hnbrs ▸ hnext)
            simp only [hnext] at h
            by_cases hc : (fs'.getD j default).check_for_merge
                ((fs'.getD i default).val) = true
            · simp only [hc, if_true, Field.merge] at h
              cases h
              simp only [Field.merge]
              have h1 := sumVals_set fs' j
                { (fs'.getD j default) with
                  val := (fs'.getD j default).val + (fs'.getD i default).val }
                (by omega)
              have h2 := sumVals_set (fs'.set j
                  { (fs'.getD j default) with
                    val := (fs'.getD j default).val + (fs'.getD i default).val })
                i { (fs'.getD i default) with val := 0 }
                (by simp only [List.length_set]; omega)
              rw [getD_set_ne fs' j i _ (by exact fun hh => hji hh.symm)] at h2
              simp only at h1 h2
              omega
            · simp only [hc, if_false, Bool.false_eq_true] at h
              cases h
              exact hsum'
        · simp only [Bool.not_eq_true] at hmv'
          subst hmv'
          simp only [Bool.not_false, if_true] at h
          cases h
          exact hsum'

/-- The score accumulator is write-only: running with start score `s` equals
running with score 0 and adding `s`. -/
theorem recursive_merge_score_shift : ∀ (fuel : Nat) (mv : Option Nat)
    (d : Nat) (fs : List Field) (s : Nat),
    recursive_merge fuel mv d fs s =
      (recursive_merge fuel mv d fs 0).map fun r => (r.1, r.2.1, s + r.2.2) := by
  intro fuel
  induction fuel with
  | zero => intro mv d fs s; rfl
  | succ fuel ih =>
    intro mv d fs s
    cases mv with
    | none => simp [recursive_merge]
    | some i =>
      rw [recursive_merge, recursive_merge]
      rw [ih _ d fs s, ih _ d fs 0]
      cases hrec : recursive_merge fuel
          ((fs.getD i default).neighbours.getD d none) d fs 0 with
      | none => rfl
      | some r =>
        obtain ⟨mv', fs', s'⟩ := r
        simp only [Option.map_some']
        cases hnext : (fs.getD i default).neighbours.getD d none with
        | none =>
          by_cases hmv : mv' <;> simp [hmv]
        | some j =>
          by_cases hmv : mv'
          · subst hmv
            simp only [Bool.not_true, Bool.false_eq_true, if_false]
            split_ifs <;> simp [Field.merge, Nat.add_assoc]
          · simp only [Bool.not_eq_true] at hmv
            subst hmv
            simp [recursive_merge]

theorem movePass_none (d : Nat) (o : List Nat) :
    movePass d o none = none := by
  induction o with
  | nil => rfl
  | cons i o ih => simpa [movePass] using ih

theorem movePass_cons (d i : Nat) (o : List Nat) (st : Option (List Field × Nat)) :
    movePass d (i :: o) st =
      movePass d o (st.bind fun fs =>
        (recursive_merge (fs.1.length + 1) (some i) d fs.1 fs.2).map
          fun r => (r.2.1, r.2.2)) := rfl

theorem movePass_nil (d : Nat) (st : Option (List Field × Nat)) :
    movePass d [] st = st := rfl

/-- Each pass preserves the constructed-board shape and the total tile
value, provided the visited indices are tile indices. -/
theorem movePass_sum : ∀ (o : List Nat) (d : Nat) (fs : List Field) (s : Nat)
    (r : List Field × Nat), StdAdj fs → (∀ i ∈ o, i < 16) →
    movePass d o (some (fs, s)) = some r →
    sumVals r.1 = sumVals fs ∧ StdAdj r.1 := by
  intro o
  induction o with
  | nil =>
    intro d fs s r hstd _ h
    rw [movePass_nil] at h
    cases h
    exact ⟨rfl, hstd⟩
  | cons i o ih =>
    intro d fs s r hstd ho h
    rw [movePass_cons] at h
    simp only [Option.some_bind] at h
    cases hrec : recursive_merge (fs.length + 1) (some i) d fs s with
    | none =>
      rw [hrec] at h
      simp only [Option.map_none'] at h
      rw [movePass_none] at h
      exact Option.noConfusion h
    | some r' =>
      rw [hrec] at h
      simp only [Option.map_some'] at h
      have hsum := recursive_merge_sum _ _ d fs s _ hstd
        (fun k hk => by cases hk; exact ho i (List.mem_cons_self i o)) hrec
      have hstd' := recursive_merge_stdAdj _ _ d fs s _ hstd hrec
      obtain ⟨hs2, hstd2⟩ := ih d r'.2.1 r'.2.2 r hstd'
        (fun k hk => ho k (List.mem_cons_of_mem i hk)) h
      exact ⟨hs2.trans hsum, hstd2⟩

theorem distToEdge_le_three : ∀ i < 16, ∀ d < 4, distToEdge d i ≤ 3 := by
  decide

theorem stdNbrs_none_iff (i d : Nat) (hi : i < 16) (hd : d < 4) :
    (stdNbrs i).getD d none = none ↔ distToEdge d i = 0 :=
  (stdNbrs_spec i hi d hd).2

/-- On a constructed board the chain recursion always succeeds once the fuel
exceeds the distance to the boundary (which is at most 3). -/
theorem recursive_merge_terminates_aux : ∀ (n i d : Nat) (fs : List Field)
    (s fuel : Nat), StdAdj fs → i < 16 → d < 4 → distToEdge d i = n →
    n + 2 ≤ fuel →
    ∃ fs' s', recursive_merge fuel (some i) d fs s = some (true, fs', s') := by
  intro n
  induction n with
  | zero =>
    intro i d fs s fuel hstd hi hd hdist hfuel
    obtain ⟨f, hf⟩ : ∃ f, fuel = f + 1 + 1 := ⟨fuel - 2, by omega⟩
    subst hf
    have hnone : (fs.getD i default).neighbours.getD d none = none := by
      rw [hstd.2 i hi]
      exact (stdNbrs_none_iff i d hi hd).mpr hdist
    refine ⟨fs, s, rm_step_blocked _ _ _ _ _ _ _ ?_⟩
    rw [hnone]
    simp [recursive_merge]
  | succ n ih =>
    intro i d fs s fuel hstd hi hd hdist hfuel
    obtain ⟨f, hf⟩ : ∃ f, fuel = f + 1 := ⟨fuel - 1, by omega⟩
    subst hf
    have hnbrs : (fs.getD i default).neighbours = stdNbrs i := hstd.2 i hi
    cases hnext : (fs.getD i default).neighbours.getD d none with
    | none =>
      rw [hnbrs] at hnext
      rw [stdNbrs_none_iff i d hi hd] at hnext
      omega
    | some j =>
      obtain ⟨hj16, hji, hjd⟩ := stdNbrs_some i d j hi (hnbrs ▸ hnext)
      obtain ⟨fs', s', hrec⟩ := ih j d fs s f hstd hj16 hd (by omega) (by omega)
      by_cases hc : (fs'.getD j default).check_for_merge
          ((fs'.getD i default).val) = true
      · exact ⟨_, _, rm_step_merge f i j d fs fs' s s' hnext
          (by rw [hnext]; exact hrec) hc⟩
      · exact ⟨fs', s', rm_step_stuck f i j d fs fs' s s' hnext
          (by rw [hnext]; exact hrec)
          (by simpa using hc)⟩

/-- Chain resolution succeeds for every start tile and valid direction with
any fuel of at least 5 — the chain is at most 4 tiles long. -/
theorem recursive_merge_terminates (i d : Nat) (fs : List Field)
    (s fuel : Nat) (hstd : StdAdj fs) (hi : i < 16) (hd : d < 4)
    (hfuel : 5 ≤ fuel) :
    ∃ fs' s', recursive_merge fuel (some i) d fs s = some (true, fs', s') :=
  recursive_merge_terminates_aux (distToEdge d i) i d fs s fuel hstd hi hd rfl
    (by have := distToEdge_le_three i hi d hd; omega)

theorem movePass_some : ∀ (o : List Nat) (d : Nat) (fs : List Field) (s : Nat),
    StdAdj fs → (∀ i ∈ o, i < 16) → d < 4 →
    ∃ r, movePass d o (some (fs, s)) = some r ∧ StdAdj r.1 := by
  intro o
  induction o with
  | nil => intro d fs s hstd _ _; exact ⟨(fs, s), rfl, hstd⟩
  | cons i o ih =>
    intro d fs s hstd ho hd
    obtain ⟨fs', s', hrec⟩ := recursive_merge_terminates i d fs s
      (fs.length + 1) hstd (ho i (List.mem_cons_self i o)) hd
      (by rw [hstd.1]; omega)
    have hstd' : StdAdj fs' :=
      recursive_merge_stdAdj _ _ d fs s _ hstd hrec
    obtain ⟨r, hr, hstdr⟩ := ih d fs' s' hstd'
      (fun k hk => ho k (List.mem_cons_of_mem i hk)) hd
    refine ⟨r, ?_, hstdr⟩
    rw [movePass_cons]
    simp only [Option.some_bind, hrec, Option.map_some']
    exact hr

/-- For a valid direction the guard in `Grid::move_vals` passes. -/
theorem move_vals_valid (g : Grid) (d s : Nat) (hd : d < 4) :
    g.move_vals d s =
      (movePass d (List.range g.fields.length)
        (movePass d (List.range g.fields.length)
          (some (g.fields, s)))).map fun fs => (⟨fs.1⟩, fs.2) := by
  rw [Grid.move_vals]
  interval_cases d <;> rfl

/-- An unknown direction is rejected as a no-op. -/
theorem move_vals_invalid (g : Grid) (d s : Nat) (hd : 4 ≤ d) :
    g.move_vals d s = some (g, s) := by
  rw [Grid.move_vals]
  have hany : ([0, 1, 2, 3].any fun v => v == d) = false := by
    simp only [List.any_cons, List.any_nil, Bool.or_false, Bool.or_eq_false_iff,
      beq_eq_false_iff_ne, ne_eq]
    omega
  rw [hany]
  rfl

/-- `Grid::move_vals` runs to completion on every constructed board. -/
theorem move_vals_some (g : Grid) (d s : Nat) (hstd : StdAdj g.fields) :
    ∃ r, g.move_vals d s = some r := by
  rcases Nat.lt_or_ge d 4 with hd | hd
  · rw [move_vals_valid g d s hd]
    obtain ⟨r1, hr1, hstd1⟩ := movePass_some (List.range g.fields.length) d
      g.fields s hstd (fun i hi => by
        rw [List.mem_range, hstd.1] at hi; exact hi) hd
    obtain ⟨r2, hr2, -⟩ := movePass_some (List.range g.fields.length) d
      r1.1 r1.2 hstd1 (fun i hi => by
        rw [List.mem_range, hstd.1] at hi; exact hi) hd
    refine ⟨(⟨r2.1⟩, r2.2), ?_⟩
    rw [hr1, hr2]
    rfl
  · exact ⟨(g, s), move_vals_invalid g d s hd⟩

/-- Conservation at the `move_vals` level: a completed move never changes
the total of all tile values. -/
theorem move_vals_sum (g : Grid) (d s : Nat) (g' : Grid) (s' : Nat)
    (hstd : StdAdj g.fields) (h : g.move_vals d s = some (g', s')) :
    sumVals g'.fields = sumVals g.fields := by
  rcases Nat.lt_or_ge d 4 with hd | hd
  · rw [move_vals_valid g d s hd] at h
    cases hm1 : movePass d (List.range g.fields.length)
        (some (g.fields, s)) with
    | none =>
      rw [hm1, movePass_none] at h
      exact Option.noConfusion h
    | some r1 =>
      rw [hm1] at h
      cases hm2 : movePass d (List.range g.fields.length) (some r1) with
      | none =>
        rw [hm2] at h
        exact Option.noConfusion h
      | some r2 =>
        rw [hm2] at h
        simp only [Option.map_some'] at h
        have hmem : ∀ i ∈ List.range g.fields.length, i < 16 := fun i hi => by
          rw [List.mem_range, hstd.1] at hi; exact hi
        obtain ⟨hs1, hstd1⟩ := movePass_sum _ d g.fields s r1 hstd hmem hm1
        obtain ⟨hs2, -⟩ := movePass_sum _ d r1.1 r1.2 r2 hstd1 hmem hm2
        cases h
        exact hs2.trans hs1
  · rw [move_vals_invalid g d s hd] at h
    cases h
    rfl

theorem movePass_score_shift : ∀ (o : List Nat) (d : Nat) (fs : List Field)
    (s : Nat),
    movePass d o (some (fs, s)) =
      (movePass d o (some (fs, 0))).map fun r => (r.1, s + r.2) := by
  intro o
  induction o with
  | nil => intro d fs s; simp [movePass_nil]
  | cons i o ih =>
    intro d fs s
    rw [movePass_cons, movePass_cons]
    simp only [Option.some_bind]
    rw [recursive_merge_score_shift (fs.length + 1) (some i) d fs s]
    cases h0 : recursive_merge (fs.length + 1) (some i) d fs 0 with
    | none => simp [movePass_none]
    | some r =>
      simp only [Option.map_some']
      rw [ih d r.2.1 (s + r.2.2), ih d r.2.1 r.2.2]
      cases hmp : movePass d o (some (r.2.1, 0)) with
      | none => rfl
      | some r' => simp [Nat.add_assoc]

theorem move_vals_score_shift (g : Grid) (d s : Nat) :
    g.move_vals d s = (g.move_vals d 0).map fun r => (r.1, s + r.2) := by
  rcases Nat.lt_or_ge d 4 with hd | hd
  · rw [move_vals_valid g d s hd, move_vals_valid g d 0 hd]
    rw [movePass_score_shift (List.range g.fields.length) d g.fields s]
    cases h1 : movePass d (List.range g.fields.length)
        (some (g.fields, 0)) with
    | none => simp [movePass_none]
    | some r1 =>
      simp only [Option.map_some']
      rw [movePass_score_shift (List.range g.fields.length) d r1.1 (s + r1.2),
        movePass_score_shift (List.range g.fields.length) d r1.1 r1.2]
      cases h2 : movePass d (List.range g.fields.length) (some (r1.1, 0)) with
      | none => rfl
      | some r2 => simp [Nat.add_assoc]
  · rw [move_vals_invalid g d s hd, move_vals_invalid g d 0 hd]
    rfl

/-- C5: starting from the board whose first row is `[2,2,0,0]` and the rest
empty, a `left` move (direction 3) yields first row `[4,0,0,0]`, rest still
empty, and adds exactly 4 to the score. -/
theorem left_move_merges_two_twos (s : Nat) :
    (Grid.withVals [2, 2, 0, 0, 0, 0, 0, 0, 0, 0, 0, 0, 0, 0, 0, 0]).move_vals
      3 s =
    some (Grid.withVals [4, 0, 0, 0, 0, 0, 0, 0, 0, 0, 0, 0, 0, 0, 0, 0],
      s + 4) := by
  rw [move_vals_score_shift]
  have h0 : (Grid.withVals
      [2, 2, 0, 0, 0, 0, 0, 0, 0, 0, 0, 0, 0, 0, 0, 0]).move_vals 3 0 =
      some (Grid.withVals [4, 0, 0, 0, 0, 0, 0, 0, 0, 0, 0, 0, 0, 0, 0, 0],
        4) := by decide
  rw [h0]
  rfl

/-- C10: on a constructed board the chain recursion terminates (any fuel of
at least 5, i.e. recursion depth bounded by the board width plus one,
suffices and returns a result), and consequently `Grid::move_vals` runs to
completion on every call. -/
theorem recursion_terminates_and_move_completes :
    (∀ (fs : List Field) (s i d fuel : Nat), StdAdj fs → i < 16 → d < 4 →
      5 ≤ fuel →
      ∃ fs' s', recursive_merge fuel (some i) d fs s = some (true, fs', s')) ∧
    (∀ (g : Grid) (d s : Nat), StdAdj g.fields →
      ∃ r, g.move_vals d s = some r) :=
  ⟨fun fs s i d fuel hstd hi hd hfuel =>
      recursive_merge_terminates i d fs s fuel hstd hi hd hfuel,
    fun g d s hstd => move_vals_some g d s hstd⟩

theorem recursion_terminates_and_move_completes_witness :
    StdAdj Grid.new.fields ∧
      ∃ r, Grid.new.move_vals 3 0 = some r :=
  ⟨grid_new_stdAdj,
    recursion_terminates_and_move_completes.2 Grid.new 3 0 grid_new_stdAdj⟩

theorem newPiecesGo_length (draws : Nat → ℚ) (af : Bool) :
    ∀ (fs : List Field) (n : Nat),
      (newPiecesGo draws af n fs).1.length = fs.length := by
  intro fs
  induction fs with
  | nil => intro n; rfl
  | cons f rest ih =>
    intro n
    rw [newPiecesGo]
    by_cases hb : (decide (draws n < mkRat 1 10) && af) = true
    · simp only [hb, if_true, List.length_cons]
    · simp only [hb, if_false, Bool.false_eq_true, List.length_cons, ih]

theorem newPiecesGo_nbrs (draws : Nat → ℚ) (af : Bool) :
    ∀ (fs : List Field) (n k : Nat),
      ((newPiecesGo draws af n fs).1.getD k default).neighbours =
        (fs.getD k default).neighbours := by
  intro fs
  induction fs with
  | nil => intro n k; rfl
  | cons f rest ih =>
    intro n k
    rw [newPiecesGo]
    have hf' : (if f.val == 0 && decide (draws n < mkRat 1 10) then
        { f with val := 2 } else f).neighbours = f.neighbours := by
      split <;> rfl
    by_cases hb : (decide (draws n < mkRat 1 10) && af) = true
    · simp only [hb, if_true]
      cases k with
      | zero => simpa [List.getD_cons_zero] using hf'
      | succ k => simp [List.getD_cons_succ]
    · simp only [hb, if_false, Bool.false_eq_true]
      cases k with
      | zero => simpa [List.getD_cons_zero] using hf'
      | succ k => simpa [List.getD_cons_succ] using ih (n + 1) k

theorem newPiecesGo_false_flag (draws : Nat → ℚ) :
    ∀ (fs : List Field) (n : Nat),
      (newPiecesGo draws false n fs).2 = false := by
  intro fs
  induction fs with
  | nil => intro n; rfl
  | cons f rest ih =>
    intro n
    rw [newPiecesGo]
    simp only [Bool.and_false, if_false, Bool.false_eq_true]
    exact ih (n + 1)

theorem newPiecesGo_false_vals (draws : Nat → ℚ) :
    ∀ (fs : List Field) (n k : Nat), k < fs.length →
      ((newPiecesGo draws false n fs).1.getD k default).val =
        if (fs.getD k default).val = 0 ∧ draws (n + k) < mkRat 1 10 then 2
        else (fs.getD k default).val := by
  intro fs
  induction fs with
  | nil => intro n k hk; cases hk
  | cons f rest ih =>
    intro n k hk
    rw [newPiecesGo]
    simp only [Bool.and_false, if_false, Bool.false_eq_true]
    cases k with
    | zero =>
      simp only [List.getD_cons_zero, Nat.add_zero]
      by_cases h0 : (f.val == 0 && decide (draws n < mkRat 1 10)) = true
      · rw [if_pos h0]
        simp only [Bool.and_eq_true, beq_iff_eq, decide_eq_true_eq] at h0
        rw [if_pos h0]
      · rw [if_neg h0]
        simp only [Bool.and_eq_true, beq_iff_eq, decide_eq_true_eq] at h0
        rw [if_neg h0]
    | succ k =>
      simp only [List.getD_cons_succ]
      have := ih (n + 1) k (by simpa using Nat.lt_of_succ_lt_succ hk)
      rw [this]
      have harg : n + 1 + k = n + (k + 1) := by omega
      rw [harg]

theorem newPiecesGo_full (draws : Nat → ℚ) :
    ∀ (fs : List Field) (n : Nat), (∀ f ∈ fs, f.val ≠ 0) →
      (newPiecesGo draws true n fs).1 = fs ∧
      ((newPiecesGo draws true n fs).2 = true ↔
        ∃ k < fs.length, draws (n + k) < mkRat 1 10) := by
  intro fs
  induction fs with
  | nil =>
    intro n _
    refine ⟨rfl, ?_⟩
    simp [newPiecesGo]
  | cons f rest ih =>
    intro n hnz
    have hf0 : (f.val == 0) = false := by
      simp only [beq_eq_false_iff_ne, ne_eq]
      exact hnz f (List.mem_cons_self f rest)
    rw [newPiecesGo]
    simp only [hf0, Bool.false_and, if_false, Bool.false_eq_true, Bool.and_true]
    by_cases hd : decide (draws n < mkRat 1 10) = true
    · simp only [hd, if_true]
      refine ⟨by simp, ?_⟩
      simp only [decide_eq_true_eq] at hd
      simp only [true_iff]
      exact ⟨0, by simp, by simpa using hd⟩
    · simp only [hd, if_false, Bool.false_eq_true]
      obtain ⟨hfields, hflag⟩ := ih (n + 1)
        (fun g hg => hnz g (List.mem_cons_of_mem f hg))
      simp only [decide_eq_true_eq] at hd
      refine ⟨by rw [hfields], ?_⟩
      rw [hflag]
      constructor
      · rintro ⟨k, hk, hdr⟩
        exact ⟨k + 1, by simpa using Nat.succ_lt_succ hk,
          by rwa [(by omega : n + (k + 1) = n + 1 + k)]⟩
      · rintro ⟨k, hk, hdr⟩
        cases k with
        | zero => exact absurd (by simpa using hdr) hd
        | succ k =>
          exact ⟨k, by simpa using Nat.lt_of_succ_lt_succ hk,
            by rwa [(by omega : n + 1 + k = n + (k + 1))]⟩

theorem is_dead_eq (a : App) : a.is_dead = { a with dead := true } := by
  rw [App.is_dead]
  split
  · rfl
  · next h =>
    cases a with
    | mk sc hs ex op dd gr =>
      simp only [Bool.not_eq_true', Bool.not_eq_false] at h
      subst h
      rfl

theorem all_full_iff (fs : List Field) :
    (fs.all fun f => f.val != 0) = true ↔ ∀ f ∈ fs, f.val ≠ 0 := by
  simp [List.all_eq_true]

theorem getD_mem (fs : List Field) (i : Nat) (hi : i < fs.length) :
    fs.getD i default ∈ fs := by
  rw [List.getD_eq_getElem _ _ hi]
  exact List.getElem_mem hi

/-- Closed form of `App::new_pieces`: the grid is the scanned field list and
the dead flag is turned on iff the scan reported death. -/
theorem new_pieces_eq (a : App) (draws : Nat → ℚ) :
    a.new_pieces draws = { a with
      grid := ⟨(newPiecesGo draws (a.grid.fields.all fun f => f.val != 0) 0
        a.grid.fields).1⟩
      dead := ((newPiecesGo draws (a.grid.fields.all fun f => f.val != 0) 0
        a.grid.fields).2 || a.dead) } := by
  rw [App.new_pieces]
  split
  · next hb =>
    rw [is_dead_eq, hb]
    rfl
  · next hb =>
    simp only [Bool.not_eq_true] at hb
    rw [hb]
    rfl

/-- C7: the spawn scan turns a tile into a 2 exactly when it was empty and
its draw is below the threshold, and reports death exactly when the board
was full before the scan and some draw is below the threshold. -/
theorem spawn_scan_spec (a : App) (draws : Nat → ℚ) :
    (∀ i < a.grid.fields.length,
      ((a.new_pieces draws).grid.fields.getD i default).val =
        (if (a.grid.fields.getD i default).val = 0 ∧ draws i < mkRat 1 10 then 2
         else (a.grid.fields.getD i default).val)) ∧
    ((a.new_pieces draws).dead = true ↔
      (a.dead = true ∨ ((∀ f ∈ a.grid.fields, f.val ≠ 0) ∧
        ∃ i < a.grid.fields.length, draws i < mkRat 1 10))) := by
  rw [new_pieces_eq]
  by_cases haf : (a.grid.fields.all fun f => f.val != 0) = true
  · have hnz : ∀ f ∈ a.grid.fields, f.val ≠ 0 := (all_full_iff _).mp haf
    obtain ⟨hfields, hflag⟩ := newPiecesGo_full draws a.grid.fields 0 hnz
    rw [haf]
    constructor
    · intro i hi
      have hne : (a.grid.fields.getD i default).val ≠ 0 :=
        hnz _ (getD_mem _ i hi)
      rw [if_neg fun hcon => hne hcon.1]
      simp only [hfields]
    · simp only [Bool.or_eq_true]
      constructor
      · rintro (hb | hd)
        · obtain ⟨k, hk, hdr⟩ := hflag.mp hb
          exact Or.inr ⟨hnz, k, hk, by simpa using hdr⟩
        · exact Or.inl hd
      · rintro (hd | ⟨-, k, hk, hdr⟩)
        · exact Or.inr hd
        · exact Or.inl (hflag.mpr ⟨k, hk, by simpa using hdr⟩)
  · have hnz : ¬ ∀ f ∈ a.grid.fields, f.val ≠ 0 := fun hcon =>
      haf ((all_full_iff _).mpr hcon)
    simp only [Bool.not_eq_true] at haf
    rw [haf]
    constructor
    · intro i hi
      have := newPiecesGo_false_vals draws a.grid.fields 0 i hi
      simpa using this
    · rw [newPiecesGo_false_flag]
      simp only [Bool.false_or]
      constructor
      · intro hd; exact Or.inl hd
      · rintro (hd | ⟨hcon, -⟩)
        · exact hd
        · exact absurd hcon hnz

theorem spawn_scan_spec_witness :
    (∀ i < (App.new.grid.fields.length),
      (((App.new).new_pieces fun n => if n = 5 then 0 else mkRat 1 2).grid.fields.getD
          i default).val =
        (if ((App.new).grid.fields.getD i default).val = 0 ∧
            (if i = 5 then (0 : ℚ) else mkRat 1 2) < mkRat 1 10 then 2
         else ((App.new).grid.fields.getD i default).val)) ∧
    (((App.new).new_pieces fun n => if n = 5 then 0 else mkRat 1 2).dead = true ↔
      ((App.new).dead = true ∨ ((∀ f ∈ (App.new).grid.fields, f.val ≠ 0) ∧
        ∃ i < (App.new).grid.fields.length,
          (if i = 5 then (0 : ℚ) else mkRat 1 2) < mkRat 1 10))) :=
  spawn_scan_spec App.new fun n => if n = 5 then 0 else mkRat 1 2

theorem zip_self_filter_ne (fs : List Field) :
    ((fs.zip fs).filter fun p => p.1.val != p.2.val) = [] := by
  induction fs with
  | nil => rfl
  | cons f rest ih => simpa [List.filter] using ih

/-- The spawn scan adds exactly 2 for every tile it changes. -/
theorem newPiecesGo_sum (draws : Nat → ℚ) (af : Bool) :
    ∀ (fs : List Field) (n : Nat),
      sumVals (newPiecesGo draws af n fs).1 =
        sumVals fs + 2 * ((fs.zip (newPiecesGo draws af n fs).1).filter
          fun p => p.1.val != p.2.val).length := by
  intro fs
  induction fs with
  | nil => intro n; rfl
  | cons f rest ih =>
    intro n
    rw [newPiecesGo]
    by_cases hsp : (f.val == 0 && decide (draws n < mkRat 1 10)) = true
    · have hf0 : f.val = 0 := by
        have h2 := hsp
        simp only [Bool.and_eq_true, beq_iff_eq, decide_eq_true_eq] at h2
        exact h2.1
      simp only [hsp, if_true]
      by_cases hb : (decide (draws n < mkRat 1 10) && af) = true
      · simp only [hb, if_true, List.zip_cons_cons, sumVals, List.map_cons,
          List.sum_cons, List.filter]
        rw [zip_self_filter_ne]
        simp [hf0]
        omega
      · simp only [hb, if_false, Bool.false_eq_true, List.zip_cons_cons,
          sumVals, List.map_cons, List.sum_cons, List.filter]
        have := ih (n + 1)
        simp only [sumVals] at this
        simp only [hf0]
        rw [this]
        simp [Nat.mul_add]
        omega
    · simp only [hsp, if_false, Bool.false_eq_true]
      by_cases hb : (decide (draws n < mkRat 1 10) && af) = true
      · simp only [hb, if_true, List.zip_cons_cons, sumVals, List.map_cons,
          List.sum_cons, List.filter, bne_self_eq_false]
        rw [zip_self_filter_ne]
        simp
      · simp only [hb, if_false, Bool.false_eq_true, List.zip_cons_cons,
          sumVals, List.map_cons, List.sum_cons, List.filter,
          bne_self_eq_false]
        have := ih (n + 1)
        simp only [sumVals] at this
        rw [this]
        omega

/-- C6: a completed `move_vals` conserves the total tile value, and the
following spawn step adds exactly 2 for each tile it spawns. -/
theorem move_conserves_sum_spawn_adds_twos :
    (∀ (g : Grid) (d s : Nat) (g' : Grid) (s' : Nat), StdAdj g.fields →
      g.move_vals d s = some (g', s') →
      sumVals g'.fields = sumVals g.fields) ∧
    (∀ (a : App) (draws : Nat → ℚ),
      sumVals (a.new_pieces draws).grid.fields =
        sumVals a.grid.fields +
          2 * ((a.grid.fields.zip (a.new_pieces draws).grid.fields).filter
            fun p => p.1.val != p.2.val).length) := by
  constructor
  · exact fun g d s g' s' hstd h => move_vals_sum g d s g' s' hstd h
  · intro a draws
    rw [new_pieces_eq]
    exact newPiecesGo_sum draws _ a.grid.fields 0

theorem move_conserves_sum_spawn_adds_twos_witness :
    StdAdj Grid.new.fields ∧
      (Grid.new.move_vals 3 0 = some (Grid.new, 0) →
        sumVals Grid.new.fields = sumVals Grid.new.fields) :=
  ⟨grid_new_stdAdj, fun h =>
    move_conserves_sum_spawn_adds_twos.1 Grid.new 3 0 Grid.new 0
      grid_new_stdAdj h⟩

/-- All tile values are 0 or a power of two. -/
def PowVals (fs : List Field) : Prop :=
  ∀ f ∈ fs, f.val = 0 ∨ ∃ k, f.val = 2 ^ k

theorem powVals_getD (fs : List Field) (hp : PowVals fs) (i : Nat) :
    (fs.getD i default).val = 0 ∨ ∃ k, (fs.getD i default).val = 2 ^ k := by
  by_cases hi : i < fs.length
  · exact hp _ (getD_mem fs i hi)
  · rw [List.getD_eq_default _ _ (Nat.le_of_not_lt hi)]
    exact Or.inl rfl

theorem powVals_set (fs : List Field) (j : Nat) (f : Field)
    (hp : PowVals fs) (hf : f.val = 0 ∨ ∃ k, f.val = 2 ^ k) :
    PowVals (fs.set j f) := by
  intro g hg
  rcases List.mem_or_eq_of_mem_set hg with hmem | rfl
  · exact hp g hmem
  · exact hf

/-- Merging preserves the powers-of-two invariant: a merge only ever adds
two equal values or adds a value to 0. -/
theorem recursive_merge_pow : ∀ (fuel : Nat) (mv : Option Nat) (d : Nat)
    (fs : List Field) (s : Nat) (r : Bool × List Field × Nat),
    PowVals fs → recursive_merge fuel mv d fs s = some r → PowVals r.2.1 := by
  intro fuel
  induction fuel with
  | zero => intro mv d fs s r _ h; cases h
  | succ fuel ih =>
    intro mv d fs s r hp h
    cases mv with
    | none =>
      simp only [recursive_merge] at h
      cases h
      exact hp
    | some i =>
      rw [recursive_merge] at h
      cases hrec : recursive_merge fuel
          ((fs.getD i default).neighbours.getD d none) d fs s with
      | none =>
        simp only [hrec] at h
        exact Option.noConfusion h
      | some r' =>
        obtain ⟨mv', fs', s'⟩ := r'
        have hp' : PowVals fs' := ih _ d fs s _ hp hrec
        simp only [hrec] at h
        by_cases hmv : mv'
        · subst hmv
          simp only [Bool.not_true, Bool.false_eq_true, if_false] at h
          cases hnext : (fs.getD i default).neighbours.getD d none with
          | none =>
            simp only [hnext] at h
            exact Option.noConfusion h
          | some j =>
            simp only [hnext] at h
            by_cases hc : (fs'.getD j default).check_for_merge
                ((fs'.getD i default).val) = true
            · simp only [hc, if_true, Field.merge] at h
              cases h
              refine powVals_set _ i _ (powVals_set _ j _ hp' ?_) (Or.inl rfl)
              have hor : (fs'.getD j default).val = (fs'.getD i default).val ∨
                  (fs'.getD j default).val = 0 := by
                have h2 := hc
                simp only [Field.check_for_merge, Bool.or_eq_true, beq_iff_eq]
                  at h2
                exact h2
              rcases hor with heq | h0
              · rcases powVals_getD fs' hp' i with hi0 | ⟨k, hk⟩
                · rw [heq, hi0]
                  exact Or.inl rfl
                · rw [heq, hk]
                  exact Or.inr ⟨k + 1, by ring⟩
              · rw [h0]
                simpa using powVals_getD fs' hp' i
            · simp only [hc, if_false, Bool.false_eq_true] at h
              cases h
              exact hp'
        · simp only [Bool.not_eq_true] at hmv
          subst hmv
          simp only [Bool.not_false, if_true] at h
          cases h
          exact hp'

theorem movePass_pow : ∀ (o : List Nat) (d : Nat) (fs : List Field) (s : Nat)
    (r : List Field × Nat), PowVals fs →
    movePass d o (some (fs, s)) = some r → PowVals r.1 := by
  intro o
  induction o with
  | nil =>
    intro d fs s r hp h
    rw [movePass_nil] at h
    cases h
    exact hp
  | cons i o ih =>
    intro d fs s r hp h
    rw [movePass_cons] at h
    simp only [Option.some_bind] at h
    cases hrec : recursive_merge (fs.length + 1) (some i) d fs s with
    | none =>
      rw [hrec] at h
      simp only [Option.map_none'] at h
      rw [movePass_none] at h
      exact Option.noConfusion h
    | some r' =>
      rw [hrec] at h
      simp only [Option.map_some'] at h
      exact ih d r'.2.1 r'.2.2 r (recursive_merge_pow _ _ d fs s _ hp hrec) h

theorem move_vals_pow (g : Grid) (d s : Nat) (g' : Grid) (s' : Nat)
    (hp : PowVals g.fields) (h : g.move_vals d s = some (g', s')) :
    PowVals g'.fields := by
  rcases Nat.lt_or_ge d 4 with hd | hd
  · rw [move_vals_valid g d s hd] at h
    cases hm1 : movePass d (List.range g.fields.length)
        (some (g.fields, s)) with
    | none =>
      rw [hm1, movePass_none] at h
      exact Option.noConfusion h
    | some r1 =>
      rw [hm1] at h
      cases hm2 : movePass d (List.range g.fields.length) (some r1) with
      | none =>
        rw [hm2] at h
        exact Option.noConfusion h
      | some r2 =>
        rw [hm2] at h
        simp only [Option.map_some'] at h
        cases h
        exact movePass_pow _ d r1.1 r1.2 r2
          (movePass_pow _ d g.fields s r1 hp hm1) hm2
  · rw [move_vals_invalid g d s hd] at h
    cases h
    exact hp

theorem newPiecesGo_pow (draws : Nat → ℚ) (af : Bool) :
    ∀ (fs : List Field) (n : Nat), PowVals fs →
      PowVals (newPiecesGo draws af n fs).1 := by
  intro fs
  induction fs with
  | nil => intro n hp; exact hp
  | cons f rest ih =>
    intro n hp
    have hrest : PowVals rest := fun g hg => hp g (List.mem_cons_of_mem f hg)
    have hf' : ∀ g ∈ [if f.val == 0 && decide (draws n < mkRat 1 10) then
        { f with val := 2 } else f], g.val = 0 ∨ ∃ k, g.val = 2 ^ k := by
      intro g hg
      simp only [List.mem_singleton] at hg
      subst hg
      split
      · exact Or.inr ⟨1, rfl⟩
      · exact hp f (List.mem_cons_self f rest)
    rw [newPiecesGo]
    split
    · intro g hg
      rcases List.mem_cons.mp hg with rfl | hmem
      · exact hf' _ (List.mem_singleton.mpr rfl)
      · exact hrest _ hmem
    · intro g hg
      rcases List.mem_cons.mp hg with rfl | hmem
      · exact hf' _ (List.mem_singleton.mpr rfl)
      · exact ih (n + 1) hrest _ hmem

theorem highscore_update_grid (a : App) : (a.highscore_update).grid = a.grid := by
  rw [App.highscore_update]
  split <;> rfl

theorem run_step_grid (a a' : App) (k : KeyCode) (draws : Nat → ℚ)
    (h : a.run_step k draws = some a') :
    ∃ b, a.handle_key_event k draws = some b ∧ a'.grid = b.grid := by
  rw [App.run_step] at h
  cases hk : a.handle_key_event k draws with
  | none =>
    rw [hk] at h
    exact Option.noConfusion h
  | some b =>
    rw [hk] at h
    simp only [Option.map_some'] at h
    cases h
    refine ⟨b, rfl, ?_⟩
    split
    · rfl
    · split
      · rfl
      · exact highscore_update_grid b

theorem new_pieces_stdAdj (a : App) (draws : Nat → ℚ)
    (hstd : StdAdj a.grid.fields) : StdAdj (a.new_pieces draws).grid.fields := by
  rw [new_pieces_eq]
  refine ⟨?_, ?_⟩
  · simpa [newPiecesGo_length] using hstd.1
  · intro i hi
    rw [newPiecesGo_nbrs]
    exact hstd.2 i hi

theorem new_pieces_pow (a : App) (draws : Nat → ℚ)
    (hp : PowVals a.grid.fields) : PowVals (a.new_pieces draws).grid.fields := by
  rw [new_pieces_eq]
  exact newPiecesGo_pow draws _ a.grid.fields 0 hp

theorem move_vals_stdAdj (g : Grid) (d s : Nat) (g' : Grid) (s' : Nat)
    (hstd : StdAdj g.fields) (h : g.move_vals d s = some (g', s')) :
    StdAdj g'.fields := by
  rcases Nat.lt_or_ge d 4 with hd | hd
  · rw [move_vals_valid g d s hd] at h
    cases hm1 : movePass d (List.range g.fields.length)
        (some (g.fields, s)) with
    | none =>
      rw [hm1, movePass_none] at h
      exact Option.noConfusion h
    | some r1 =>
      rw [hm1] at h
      cases hm2 : movePass d (List.range g.fields.length) (some r1) with
      | none =>
        rw [hm2] at h
        exact Option.noConfusion h
      | some r2 =>
        rw [hm2] at h
        simp only [Option.map_some'] at h
        have hmem : ∀ i ∈ List.range g.fields.length, i < 16 := fun i hi => by
          rw [List.mem_range, hstd.1] at hi; exact hi
        obtain ⟨-, hstd1⟩ := movePass_sum _ d g.fields s r1 hstd hmem hm1
        obtain ⟨-, hstd2⟩ := movePass_sum _ d r1.1 r1.2 r2 hstd1 hmem hm2
        cases h
        exact hstd2
  · rw [move_vals_invalid g d s hd] at h
    cases h
    exact hstd

theorem move_app_stdAdj (a : App) (d : Nat) (draws : Nat → ℚ) (b : App)
    (hstd : StdAdj a.grid.fields)
    (h : (a.grid.move_vals d a.score).map (fun gs =>
      App.new_pieces { a with grid := gs.1, score := gs.2 } draws) = some b) :
    StdAdj b.grid.fields := by
  obtain ⟨gs, hgs, rfl⟩ := Option.map_eq_some'.mp h
  exact new_pieces_stdAdj _ draws
    (move_vals_stdAdj a.grid d a.score gs.1 gs.2 hstd hgs)

theorem move_app_pow (a : App) (d : Nat) (draws : Nat → ℚ) (b : App)
    (hp : PowVals a.grid.fields)
    (h : (a.grid.move_vals d a.score).map (fun gs =>
      App.new_pieces { a with grid := gs.1, score := gs.2 } draws) = some b) :
    PowVals b.grid.fields := by
  obtain ⟨gs, hgs, rfl⟩ := Option.map_eq_some'.mp h
  exact new_pieces_pow _ draws
    (move_vals_pow a.grid d a.score gs.1 gs.2 hp hgs)

theorem handle_key_stdAdj (a b : App) (k : KeyCode) (draws : Nat → ℚ)
    (hstd : StdAdj a.grid.fields)
    (h : a.handle_key_event k draws = some b) : StdAdj b.grid.fields := by
  cases k with
  | charQ => cases h; exact hstd
  | esc =>
    cases h
    rw [App.pause]
    split <;> exact hstd
  | enter =>
    cases h
    rw [App.restart]
    split
    · exact grid_new_stdAdj
    · exact hstd
  | right => exact move_app_stdAdj a 1 draws b hstd h
  | left => exact move_app_stdAdj a 3 draws b hstd h
  | up => exact move_app_stdAdj a 0 draws b hstd h
  | down => exact move_app_stdAdj a 2 draws b hstd h
  | other => cases h; exact hstd

theorem grid_new_pow : PowVals Grid.new.fields := by
  have h0 : ∀ f ∈ Grid.new.fields, f.val = 0 := by decide
  exact fun f hf => Or.inl (h0 f hf)

theorem handle_key_pow (a b : App) (k : KeyCode) (draws : Nat → ℚ)
    (hp : PowVals a.grid.fields)
    (h : a.handle_key_event k draws = some b) : PowVals b.grid.fields := by
  cases k with
  | charQ => cases h; exact hp
  | esc =>
    cases h
    rw [App.pause]
    split <;> exact hp
  | enter =>
    cases h
    rw [App.restart]
    split
    · exact grid_new_pow
    · exact hp
  | right => exact move_app_pow a 1 draws b hp h
  | left => exact move_app_pow a 3 draws b hp h
  | up => exact move_app_pow a 0 draws b hp h
  | down => exact move_app_pow a 2 draws b hp h
  | other => cases h; exact hp

/-- States reachable from a fresh `App` (with any persisted high score) by
key events processed through the run loop. -/
inductive Reach : App → Prop where
  | init (h : Nat) : Reach { App.new with highscore := h }
  | step {a a' : App} (k : KeyCode) (draws : Nat → ℚ) : Reach a →
      a.run_step k draws = some a' → Reach a'

/-- C8: in every reachable state the board has 16 tiles and every tile's
neighbour list equals the construction formula of `Grid::new` — adjacency is
set at construction and never modified by moves, spawns or restarts. -/
theorem adjacency_is_construction_formula (a : App) (h : Reach a) :
    StdAdj a.grid.fields := by
  induction h with
  | init hs => exact grid_new_stdAdj
  | step k draws hr hstep ih =>
    next a a' =>
      obtain ⟨b, hb, hgrid⟩ := run_step_grid a a' k draws hstep
      rw [hgrid]
      exact handle_key_stdAdj a b k draws ih hb

theorem adjacency_is_construction_formula_witness :
    Reach App.new ∧ StdAdj App.new.grid.fields :=
  ⟨Reach.init 0, adjacency_is_construction_formula App.new (Reach.init 0)⟩

/-- C9: in every reachable state every tile value is 0 or a power of two:
spawns write 2 and merges add equal values or add to 0. -/
theorem values_are_powers_of_two (a : App) (h : Reach a) :
    PowVals a.grid.fields := by
  induction h with
  | init hs => exact grid_new_pow
  | step k draws hr hstep ih =>
    next a a' =>
      obtain ⟨b, hb, hgrid⟩ := run_step_grid a a' k draws hstep
      rw [hgrid]
      exact handle_key_pow a b k draws ih hb

theorem values_are_powers_of_two_witness :
    Reach App.new ∧ PowVals App.new.grid.fields :=
  ⟨Reach.init 0, values_are_powers_of_two App.new (Reach.init 0)⟩

/-- C1 (refuted): the run loop checks `on_pause || dead` only *after*
`handle_events` has already processed the key, and `handle_key_event` has no
pause/dead gate, so a directional input mutates the board and the score even
while paused or dead.  Both flags are exercised: a paused app and a dead app
with first row `[2,2,0,0]` both end up with row `[4,0,0,0]` and score 4
after a Left key (all spawn draws at or above the threshold). -/
theorem paused_or_dead_input_still_moves :
    App.run_step
        (App.mk 0 0 false true false
          (Grid.withVals [2, 2, 0, 0, 0, 0, 0, 0, 0, 0, 0, 0, 0, 0, 0, 0]))
        KeyCode.left (fun _ => mkRat 1 2) =
      some (App.mk 4 0 false true false
        (Grid.withVals [4, 0, 0, 0, 0, 0, 0, 0, 0, 0, 0, 0, 0, 0, 0, 0])) ∧
    App.run_step
        (App.mk 0 0 false false true
          (Grid.withVals [2, 2, 0, 0, 0, 0, 0, 0, 0, 0, 0, 0, 0, 0, 0, 0]))
        KeyCode.left (fun _ => mkRat 1 2) =
      some (App.mk 4 0 false false true
        (Grid.withVals [4, 0, 0, 0, 0, 0, 0, 0, 0, 0, 0, 0, 0, 0, 0, 0])) := by
  constructor <;> decide

/-- C4: when a tile `i` has a settled neighbour `j` in the move direction
whose value equals `i`'s value or is 0, the step merges: `j`'s value becomes
the sum, `i`'s value becomes 0, and the score grows by exactly the
neighbour's new value — also for a plain slide into an empty cell. -/
theorem merge_step_spec (fuel i j d : Nat) (fs fs' : List Field) (s s' : Nat)
    (hn : (fs.getD i default).neighbours.getD d none = some j)
    (hrec : recursive_merge fuel ((fs.getD i default).neighbours.getD d none)
      d fs s = some (true, fs', s'))
    (hc : (fs'.getD j default).val = (fs'.getD i default).val ∨
      (fs'.getD j default).val = 0)
    (hij : j ≠ i) (hi : i < fs'.length) (hj : j < fs'.length) :
    ∃ fs'',
      recursive_merge (fuel + 1) (some i) d fs s =
        some (true, fs'',
          s' + ((fs'.getD j default).val + (fs'.getD i default).val)) ∧
      (fs''.getD j default).val =
        (fs'.getD j default).val + (fs'.getD i default).val ∧
      (fs''.getD i default).val = 0 := by
  have hcb : (fs'.getD j default).check_for_merge
      ((fs'.getD i default).val) = true := by
    rw [Field.check_for_merge]
    simp only [Bool.or_eq_true, beq_iff_eq]
    exact hc
  refine ⟨_, rm_step_merge fuel i j d fs fs' s s' hn hrec hcb, ?_, ?_⟩
  · rw [getD_set_ne _ i j _ hij,
      getD_set_self fs' j _ hj]
  · rw [getD_set_self _ i _ (by simpa using hi)]

theorem merge_step_spec_witness :
    ((Grid.withVals
        [2, 2, 0, 0, 0, 0, 0, 0, 0, 0, 0, 0, 0, 0, 0, 0]).fields.getD 1
          default).neighbours.getD 3 none = some 0 ∧
    ∃ fs'',
      recursive_merge 5 (some 1) 3
        (Grid.withVals [2, 2, 0, 0, 0, 0, 0, 0, 0, 0, 0, 0, 0, 0, 0, 0]).fields
        0 =
        some (true, fs'',
          0 + (((Grid.withVals
            [2, 2, 0, 0, 0, 0, 0, 0, 0, 0, 0, 0, 0, 0, 0, 0]).fields.getD 0
              default).val +
            ((Grid.withVals
            [2, 2, 0, 0, 0, 0, 0, 0, 0, 0, 0, 0, 0, 0, 0, 0]).fields.getD 1
              default).val)) ∧
      (fs''.getD 0 default).val =
        ((Grid.withVals
          [2, 2, 0, 0, 0, 0, 0, 0, 0, 0, 0, 0, 0, 0, 0, 0]).fields.getD 0
            default).val +
          ((Grid.withVals
          [2, 2, 0, 0, 0, 0, 0, 0, 0, 0, 0, 0, 0, 0, 0, 0]).fields.getD 1
            default).val ∧
      (fs''.getD 1 default).val = 0 :=
  ⟨by decide,
    merge_step_spec 4 1 0 3
      (Grid.withVals [2, 2, 0, 0, 0, 0, 0, 0, 0, 0, 0, 0, 0, 0, 0, 0]).fields
      (Grid.withVals [2, 2, 0, 0, 0, 0, 0, 0, 0, 0, 0, 0, 0, 0, 0, 0]).fields
      0 0 (by decide) (by decide) (by decide) (by decide) (by decide)
      (by decide)⟩
